import Mathlib

set_option maxHeartbeats 1000000
set_option maxRecDepth 100000

namespace SurveyBot

/-- Decimal digits of a natural number, zero-padded on the left to width
three, mirroring the Python format specifier 03d applied to the task number. -/
def pad3 (n : Nat) : List Char :=
  let ds := Nat.toDigits 10 n
  List.replicate (3 - ds.length) '0' ++ ds

/-- The literal list-item key opening a task record, as the script builds it
for task number n. -/
def taskIdLit (n : Nat) : List Char :=
  "- task_id: \"TASK-".data ++ pad3 n ++ "\"".data

/-- The literal status field the script searches for. -/
def pendingLit : List Char := "status: \"pending\"".data

/-- The literal text substituted for the matched status field: the completed
status, a newline, six spaces of indentation, and the fixed completion date. -/
def replLit : List Char :=
  "status: \"completed\"\n      completed_date: \"2025-11-05\"".data

/-- Index of the first occurrence of u in s, if any: the least i such that u
is a prefix of s.drop i. -/
def findSub (u : List Char) : List Char → Option Nat
  | [] => if u.isPrefixOf ([] : List Char) then some 0 else none
  | c :: t =>
    if u.isPrefixOf (c :: t) then some 0
    else (findSub u t).map (· + 1)

/-- Fuel-indexed global substitution: the semantics of re.sub with the DOTALL
non-greedy two-part search text p followed eventually by q, replacing the
matched stretch by its captured head followed by r, then continuing after the
end of the match.  The fuel only bounds the recursion depth; it is set to the
length of the subject below, which always suffices since q is nonempty. -/
def subAllF (p q r : List Char) : Nat → List Char → List Char
  | 0, s => s
  | fuel + 1, s =>
    match findSub p s with
    | none => s
    | some i =>
      match findSub q (s.drop (i + p.length)) with
      | none => s
      | some j =>
        s.take i ++ p ++ (s.drop (i + p.length)).take j ++ r ++
          subAllF p q r fuel ((s.drop (i + p.length)).drop (j + q.length))

/-- Global substitution over the whole subject. -/
def subAll (p q r s : List Char) : List Char := subAllF p q r s.length s

/-- One loop iteration of the script: re.sub for task number n over the
in-memory document content. -/
def subTask (n : Nat) (s : List Char) : List Char :=
  subAll (taskIdLit n) pendingLit replLit s

/-- The whole update pass: the loop over task numbers 1..30 in increasing
order, threading the document content through each substitution. -/
def updateAll (s : List Char) : List Char :=
  (List.range' 1 30).foldl (fun c n => subTask n c) s

/-- The script run on the content of the task plan file, when the file exists:
the written-back content together with the reported count of identifiers
attempted.  A missing or unreadable file is modelled by the none input: the
read raises, so nothing is written and no message is printed. -/
def runScript (fs : Option (List Char)) : Option (List Char × Nat) :=
  match fs with
  | none => none
  | some content => some (updateAll content, (List.range' 1 30).length)

/-- Number of positions of s at which u occurs. -/
def countOcc (u s : List Char) : Nat :=
  (List.range s.length).countP (fun i => u.isPrefixOf (s.drop i))

/-- No occurrence of u inside s (bounded form, decidable). -/
def occFree (u s : List Char) : Prop :=
  ∀ i, i < s.length → ¬ u.isPrefixOf (s.drop i)

instance (u s : List Char) : Decidable (occFree u s) := by
  unfold occFree; infer_instance

/-- Scenario A document: a single in-range record with pending status. -/
def scenarioA : List Char :=
  "- task_id: \"TASK-005\"\n      status: \"pending\"\n".data

/-- Scenario B document: a single out-of-range record with pending status. -/
def scenarioB : List Char :=
  "- task_id: \"TASK-031\"\n      status: \"pending\"\n".data

/-- A document with one in-range identifier followed by two pending fields. -/
def doubledPendingDoc : List Char :=
  "- task_id: \"TASK-001\" status: \"pending\" status: \"pending\"".data

/-- A document in which the identifier TASK-001 occurs twice, each occurrence
followed by its own pending status field. -/
def twoMatchDoc : List Char :=
  ("- task_id: \"TASK-001\" status: \"pending\" " ++
   "- task_id: \"TASK-001\" status: \"pending\"").data

/-- What twoMatchDoc would become if only the first satisfying occurrence
were rewritten and the later one were left unmodified. -/
def twoMatchOnceDoc : List Char :=
  ("- task_id: \"TASK-001\" status: \"completed\"\n      " ++
   "completed_date: \"2025-11-05\" - task_id: \"TASK-001\" status: \"pending\"").data

/-- A document with an in-range record whose status is not pending, followed
by an out-of-range record with pending status. -/
def mixedRangeDoc : List Char :=
  ("- task_id: \"TASK-001\"\n      status: \"done\"\n" ++
   "- task_id: \"TASK-031\"\n      status: \"pending\"\n").data

section FindSubLemmas

variable {u s : List Char}

theorem isPrefixOf_iff {u v : List Char} :
    u.isPrefixOf v = true ↔ ∃ t, u ++ t = v := by
  rw [List.isPrefixOf_iff_prefix]
  exact ⟨fun ⟨t, h⟩ => ⟨t, h⟩, fun ⟨t, h⟩ => ⟨t, h⟩⟩

theorem prefix_length_le {u v : List Char} (h : u.isPrefixOf v = true) :
    u.length ≤ v.length := by
  rcases isPrefixOf_iff.mp h with ⟨t, rfl⟩
  simp

theorem findSub_some_pfx :
    ∀ {s : List Char} {i : Nat}, findSub u s = some i →
      u.isPrefixOf (s.drop i) = true := by
  intro s
  induction s with
  | nil =>
    intro i h
    unfold findSub at h
    by_cases hp : u.isPrefixOf ([] : List Char) = true
    · simp [hp] at h; subst h; simpa using hp
    · simp [hp] at h
  | cons c t ih =>
    intro i h
    unfold findSub at h
    by_cases hp : u.isPrefixOf (c :: t) = true
    · simp [hp] at h; subst h; simpa using hp
    · simp [hp, Option.map_eq_some'] at h
      rcases h with ⟨j, hj, rfl⟩
      simpa using ih hj

theorem findSub_min :
    ∀ {s : List Char} {i : Nat}, findSub u s = some i →
      ∀ k, k < i → ¬ u.isPrefixOf (s.drop k) = true := by
  intro s
  induction s with
  | nil =>
    intro i h k hk
    unfold findSub at h
    by_cases hp : u.isPrefixOf ([] : List Char) = true
    · simp [hp] at h; omega
    · simp [hp] at h
  | cons c t ih =>
    intro i h k hk
    unfold findSub at h
    by_cases hp : u.isPrefixOf (c :: t) = true
    · simp [hp] at h; omega
    · simp [hp, Option.map_eq_some'] at h
      rcases h with ⟨j, hj, rfl⟩
      cases k with
      | zero => simpa using hp
      | succ k => exact ih hj k (by omega)

theorem findSub_none :
    ∀ {s : List Char}, findSub u s = none →
      ∀ i, ¬ u.isPrefixOf (s.drop i) = true := by
  intro s
  induction s with
  | nil =>
    intro h i
    unfold findSub at h
    by_cases hp : u.isPrefixOf ([] : List Char) = true
    · simp [hp] at h
    · simpa using hp
  | cons c t ih =>
    intro h i
    unfold findSub at h
    by_cases hp : u.isPrefixOf (c :: t) = true
    · simp [hp] at h
    · simp [hp] at h
      cases i with
      | zero => simpa using hp
      | succ i => exact ih h i

theorem findSub_of_occ :
    ∀ {s : List Char} {t : Nat}, u.isPrefixOf (s.drop t) = true →
      ∃ i, findSub u s = some i ∧ i ≤ t := by
  intro s
  induction s with
  | nil =>
    intro t h
    refine ⟨0, ?_, Nat.zero_le t⟩
    simp only [List.drop_nil] at h
    unfold findSub
    simp [h]
  | cons c t ih =>
    intro k h
    by_cases hp : u.isPrefixOf (c :: t) = true
    · exact ⟨0, by unfold findSub; simp [hp], Nat.zero_le k⟩
    · cases k with
      | zero => simp only [List.drop_zero] at h; exact absurd h hp
      | succ k =>
        simp only [List.drop_succ_cons] at h
        rcases ih h with ⟨i, hi, hle⟩
        refine ⟨i + 1, ?_, by omega⟩
        unfold findSub
        simp [hp, hi]

theorem findSub_bound {i : Nat} (h : findSub u s = some i) (hu : u ≠ []) :
    i + u.length ≤ s.length := by
  have hp := findSub_some_pfx h
  have hlen := prefix_length_le hp
  have hds : (s.drop i).length = s.length - i := by simp
  have hne : u.length ≠ 0 := by
    intro h0
    exact hu (List.length_eq_zero.mp h0)
  omega

end FindSubLemmas

section FuelLemmas

variable {p q r : List Char}

theorem pfx_nil {u : List Char} (hu : u ≠ []) :
    ¬ u.isPrefixOf ([] : List Char) = true := by
  intro h
  rcases isPrefixOf_iff.mp h with ⟨t, ht⟩
  exact hu (List.append_eq_nil.mp ht).1

theorem qlen_pos {q : List Char} (hq : q ≠ []) : 1 ≤ q.length := by
  cases q with
  | nil => exact absurd rfl hq
  | cons a t => simp

theorem subAllF_fuel (hq : q ≠ []) :
    ∀ f s, s.length ≤ f → subAllF p q r f s = subAllF p q r s.length s := by
  intro f
  induction f using Nat.strong_induction_on with
  | _ f ih =>
    intro s hle
    match f with
    | 0 =>
      have : s = [] := List.length_eq_zero.mp (Nat.le_zero.mp hle)
      subst this; rfl
    | f + 1 =>
      cases hsl : s.length with
      | zero =>
        have hs : s = [] := List.length_eq_zero.mp hsl
        subst hs
        have hqn : findSub q ([] : List Char) = none := by
          cases hfq : findSub q ([] : List Char) with
          | none => rfl
          | some j =>
            have hqp := findSub_some_pfx hfq
            simp only [List.drop_nil] at hqp
            exact absurd hqp (pfx_nil hq)
        show subAllF p q r (f + 1) [] = subAllF p q r 0 []
        unfold subAllF
        cases hfp : findSub p ([] : List Char) with
        | none => rfl
        | some i => simp [hqn]
      | succ L =>
        show subAllF p q r (f + 1) s = subAllF p q r (L + 1) s
        unfold subAllF
        cases hfp : findSub p s with
        | none => rfl
        | some i =>
          dsimp only
          cases hfq : findSub q (s.drop (i + p.length)) with
          | none => rfl
          | some j =>
            dsimp only
            have hjb : j + q.length ≤ (s.drop (i + p.length)).length :=
              findSub_bound hfq hq
            have hq1 : 1 ≤ q.length := qlen_pos hq
            have hrest : ((s.drop (i + p.length)).drop (j + q.length)).length ≤ L := by
              rw [List.length_drop, List.length_drop] at *
              omega
            have h1 : subAllF p q r f ((s.drop (i + p.length)).drop (j + q.length)) =
                subAllF p q r ((s.drop (i + p.length)).drop (j + q.length)).length
                  ((s.drop (i + p.length)).drop (j + q.length)) :=
              ih f (by omega) _ (by omega)
            have h2 : subAllF p q r L ((s.drop (i + p.length)).drop (j + q.length)) =
                subAllF p q r ((s.drop (i + p.length)).drop (j + q.length)).length
                  ((s.drop (i + p.length)).drop (j + q.length)) :=
              ih L (by omega) _ hrest
            rw [h1, h2]

theorem subAllF_to_subAll (hq : q ≠ []) {f : Nat} {s : List Char}
    (h : s.length ≤ f) : subAllF p q r f s = subAll p q r s :=
  subAllF_fuel hq f s h

theorem subAll_of_none {s : List Char} (h : findSub p s = none) :
    subAll p q r s = s := by
  unfold subAll
  cases hsl : s.length with
  | zero => rfl
  | succ L =>
    unfold subAllF
    rw [h]

theorem subAll_of_noq {s : List Char} {i : Nat} (h : findSub p s = some i)
    (h2 : findSub q (s.drop (i + p.length)) = none) :
    subAll p q r s = s := by
  unfold subAll
  cases hsl : s.length with
  | zero => rfl
  | succ L =>
    unfold subAllF
    rw [h]
    dsimp only
    rw [h2]

theorem subAll_step (hq : q ≠ []) {s : List Char} {i j : Nat}
    (h : findSub p s = some i)
    (h2 : findSub q (s.drop (i + p.length)) = some j) :
    subAll p q r s =
      s.take i ++ p ++ (s.drop (i + p.length)).take j ++ r ++
        subAll p q r ((s.drop (i + p.length)).drop (j + q.length)) := by
  have hjb : j + q.length ≤ (s.drop (i + p.length)).length := findSub_bound h2 hq
  have hq1 : 1 ≤ q.length := qlen_pos hq
  have hs1 : 1 ≤ s.length := by
    rw [List.length_drop] at hjb
    omega
  cases hsl : s.length with
  | zero => omega
  | succ L =>
    have hrest : ((s.drop (i + p.length)).drop (j + q.length)).length ≤ L := by
      rw [List.length_drop, List.length_drop] at *
      omega
    have hL : subAll p q r s = subAllF p q r (L + 1) s := by
      unfold subAll
      rw [hsl]
    rw [hL]
    show (match findSub p s with
      | none => s
      | some i =>
        match findSub q (s.drop (i + p.length)) with
        | none => s
        | some j =>
          s.take i ++ p ++ (s.drop (i + p.length)).take j ++ r ++
            subAllF p q r L ((s.drop (i + p.length)).drop (j + q.length))) = _
    rw [h]
    dsimp only
    rw [h2]
    dsimp only
    rw [subAllF_fuel hq L _ hrest]
    rfl

end FuelLemmas

section TakeDropLemmas

/-- Merging the kept head of a match: if p really occurs at i, the kept head
of the matched stretch is exactly the first i + p.length + j characters. -/
theorem take_merge {p s : List Char} {i : Nat}
    (hp : p.isPrefixOf (s.drop i) = true) (hi : i ≤ s.length) (j : Nat) :
    s.take i ++ p ++ (s.drop (i + p.length)).take j = s.take (i + p.length + j) := by
  rcases isPrefixOf_iff.mp hp with ⟨t, ht⟩
  have hs : s = s.take i ++ (p ++ t) := by
    rw [ht]
    exact (List.take_append_drop i s).symm
  have hlen : (s.take i).length = i := by
    rw [List.length_take]
    omega
  have hdrop : s.drop (i + p.length) = t := by
    rw [← List.drop_drop, ← ht, List.drop_left]
  rw [hdrop]
  conv_rhs => rw [hs]
  rw [List.take_append_eq_append_take, hlen]
  have e1 : (s.take i).take (i + p.length + j) = s.take i :=
    List.take_of_length_le (by rw [hlen]; omega)
  have e2 : i + p.length + j - i = p.length + j := by omega
  rw [e1, e2, List.take_append_eq_append_take]
  have e3 : p.take (p.length + j) = p := List.take_of_length_le (by omega)
  have e4 : p.length + j - p.length = j := by omega
  rw [e3, e4, List.append_assoc]

/-- The remainder after the match is a plain drop. -/
theorem drop_merge (p q : List Char) (s : List Char) (i j : Nat) :
    (s.drop (i + p.length)).drop (j + q.length) =
      s.drop (i + p.length + (j + q.length)) := by
  rw [List.drop_drop]

end TakeDropLemmas

section IdentityLemmas

theorem findSub_drop_none {u s : List Char} (h : findSub u s = none) (k : Nat) :
    findSub u (s.drop k) = none := by
  cases hfq : findSub u (s.drop k) with
  | none => rfl
  | some j =>
    have hocc := findSub_some_pfx hfq
    rw [List.drop_drop] at hocc
    exact absurd hocc (findSub_none h _)

theorem subTask_id_of_qnone {s : List Char} (h : findSub pendingLit s = none)
    (n : Nat) : subTask n s = s := by
  unfold subTask
  cases hfp : findSub (taskIdLit n) s with
  | none => exact subAll_of_none hfp
  | some i => exact subAll_of_noq hfp (findSub_drop_none h _)

theorem subTask_id_of_pnone {s : List Char} {n : Nat}
    (h : findSub (taskIdLit n) s = none) : subTask n s = s := by
  unfold subTask
  exact subAll_of_none h

theorem foldl_subTask_id_qnone :
    ∀ (l : List Nat) (s : List Char), findSub pendingLit s = none →
      l.foldl (fun c n => subTask n c) s = s := by
  intro l
  induction l with
  | nil => intro s _; rfl
  | cons m l ih =>
    intro s h
    rw [List.foldl_cons, subTask_id_of_qnone h m]
    exact ih s h

theorem foldl_subTask_id_pnone :
    ∀ (l : List Nat) (s : List Char),
      (∀ m ∈ l, findSub (taskIdLit m) s = none) →
      l.foldl (fun c n => subTask n c) s = s := by
  intro l
  induction l with
  | nil => intro s _; rfl
  | cons m l ih =>
    intro s h
    rw [List.foldl_cons, subTask_id_of_pnone (h m (List.mem_cons_self m l))]
    exact ih s (fun k hk => h k (List.mem_cons_of_mem m hk))

end IdentityLemmas

section EasyClaims

/-- C6: after processing all identifiers the script reports the size of the
hardcoded range, always 30, no matter what the document content was — the
count measures identifiers attempted, not substitutions performed. -/
theorem c6_reports_thirty_attempted :
    ∀ s : List Char, ∃ out : List Char,
      runScript (some s) = some (out, (List.range' 1 30).length) ∧
        (List.range' 1 30).length = 30 := by
  intro s
  exact ⟨updateAll s, rfl, rfl⟩

/-- C7: the script reads once and writes once; the written content is the
result of folding the per-identifier substitution over n = 1, 2, ..., 30 in
increasing order, with no intermediate writes. -/
theorem c7_written_content_is_sequential_fold :
    ∀ s : List Char, runScript (some s) =
      some (List.foldl (fun c n => subTask n c) s
        [1, 2, 3, 4, 5, 6, 7, 8, 9, 10, 11, 12, 13, 14, 15, 16, 17, 18, 19,
         20, 21, 22, 23, 24, 25, 26, 27, 28, 29, 30], 30) := by
  intro s
  rfl

/-- C8: when the read fails (missing or unreadable file, modelled by the
none input) the run produces no write and no count message: the script
terminates before any output is produced. -/
theorem c8_read_failure_no_write : runScript none = none := rfl

/-- C9: the run is a pure function of the initial file content — the model
consumes no clock and no environment — and the stamped completion date is
the fixed literal 2025-11-05 embedded in the replacement text, so equal
inputs give byte-identical output and the identical reported count. -/
theorem c9_deterministic_fixed_date :
    ∀ s : List Char, runScript (some s) = some (updateAll s, 30) ∧
      ∃ pre : List Char,
        replLit = pre ++ "completed_date: \"2025-11-05\"".data := by
  intro s
  exact ⟨rfl, ⟨"status: \"completed\"\n      ".data, rfl⟩⟩

end EasyClaims

section FrameAndIdempotence

/-- C2 counterexample: in this document every record is either out of the
range 1..30 or has a non-pending status, so the claim says the pass leaves
the document byte-for-byte unchanged; the code changes it, because the
TASK-001 search reaches across into the TASK-031 record's pending status. -/
theorem c2_counterexample : updateAll mixedRangeDoc ≠ mixedRangeDoc := by
  decide

/-- C2 amended: records outside the range, or with non-pending status, are
left unchanged provided no in-range identifier occurs anywhere in the
document, or no pending status occurs at all; without such a guard an
in-range identifier earlier in the document can consume a later record's
pending status field. -/
theorem c2_amended (s : List Char)
    (h : (∀ m ∈ List.range' 1 30, findSub (taskIdLit m) s = none) ∨
         findSub pendingLit s = none) :
    updateAll s = s := by
  unfold updateAll
  cases h with
  | inl h => exact foldl_subTask_id_pnone _ _ h
  | inr h => exact foldl_subTask_id_qnone _ _ h

/-- Witness for the amended C2 at the Scenario B document, whose only record
is the out-of-range TASK-031: the pass leaves it unchanged. -/
theorem c2_witness : updateAll scenarioB = scenarioB :=
  c2_amended scenarioB (Or.inl (by decide))

/-- C3 counterexample: on a document where one in-range identifier is
followed by two pending fields, a second pass performs a further rewrite,
so the full update pass is not idempotent. -/
theorem c3_counterexample :
    updateAll (updateAll doubledPendingDoc) ≠ updateAll doubledPendingDoc := by
  decide

/-- C3 amended: the pass is idempotent whenever its first run leaves no
pending status field in the document (which the spec assumes, but which
fails for example when two pending fields follow one identifier). -/
theorem c3_amended (s : List Char)
    (h : findSub pendingLit (updateAll s) = none) :
    updateAll (updateAll s) = updateAll s := by
  conv_lhs => unfold updateAll
  exact foldl_subTask_id_qnone _ _ h

/-- Witness for the amended C3 at the Scenario A document: the first pass
completes its single pending record, no pending text remains, and the
second pass changes nothing. -/
theorem c3_witness :
    findSub pendingLit (updateAll scenarioA) = none ∧
      updateAll (updateAll scenarioA) = updateAll scenarioA :=
  ⟨by decide, c3_amended scenarioA (by decide)⟩

/-- C4 counterexample: with two satisfying occurrences of the same
identifier, the claim says the later one is left unmodified by that
identifier's step; the code rewrites both, so the step's result differs
from the only-first-rewritten document. -/
theorem c4_counterexample : subTask 1 twoMatchDoc ≠ twoMatchOnceDoc := by
  decide

/-- C4 amended: the substitution step rewrites every non-overlapping
satisfying occurrence, scanning left to right: it rewrites the first match
and then recursively processes the text after the end of the match. -/
theorem c4_amended (n : Nat) (s : List Char) (i j : Nat)
    (h : findSub (taskIdLit n) s = some i)
    (h2 : findSub pendingLit (s.drop (i + (taskIdLit n).length)) = some j) :
    subTask n s =
      s.take i ++ taskIdLit n ++
        (s.drop (i + (taskIdLit n).length)).take j ++ replLit ++
        subTask n ((s.drop (i + (taskIdLit n).length)).drop
          (j + pendingLit.length)) := by
  unfold subTask
  exact subAll_step (by decide) h h2

/-- Witness for the amended C4 at the duplicated-identifier document. -/
theorem c4_witness :
    subTask 1 twoMatchDoc =
      twoMatchDoc.take 0 ++ taskIdLit 1 ++
        (twoMatchDoc.drop (0 + (taskIdLit 1).length)).take 1 ++ replLit ++
        subTask 1 ((twoMatchDoc.drop (0 + (taskIdLit 1).length)).drop
          (1 + pendingLit.length)) :=
  c4_amended 1 twoMatchDoc 0 1 (by decide) (by decide)

end FrameAndIdempotence

section PrefixCases

theorem pfx_refl (u : List Char) : u.isPrefixOf u = true :=
  isPrefixOf_iff.mpr ⟨[], List.append_nil u⟩

theorem pfx_extend {u v w : List Char} (h : u.isPrefixOf v = true) :
    u.isPrefixOf (v ++ w) = true := by
  rcases isPrefixOf_iff.mp h with ⟨t, rfl⟩
  exact isPrefixOf_iff.mpr ⟨t ++ w, (List.append_assoc u t w).symm⟩

theorem drop_app_le {X Z : List Char} {i : Nat} (h : i ≤ X.length) :
    (X ++ Z).drop i = X.drop i ++ Z := by
  rw [List.drop_append_eq_append_drop]
  have h0 : i - X.length = 0 := by omega
  rw [h0, List.drop_zero]

theorem drop_app_ge {X Z : List Char} {i : Nat} (h : X.length ≤ i) :
    (X ++ Z).drop i = Z.drop (i - X.length) := by
  rw [List.drop_append_eq_append_drop]
  rw [List.drop_eq_nil_of_le h, List.nil_append]

theorem pfx_app_cases {u X Z : List Char} (h : u.isPrefixOf (X ++ Z) = true) :
    u.isPrefixOf X = true ∨
      (X.isPrefixOf u = true ∧ (u.drop X.length).isPrefixOf Z = true) := by
  rcases isPrefixOf_iff.mp h with ⟨t, ht⟩
  by_cases hle : u.length ≤ X.length
  · left
    have h1 : (X ++ Z).take u.length = X.take u.length := by
      rw [List.take_append_eq_append_take]
      have h0 : u.length - X.length = 0 := by omega
      rw [h0]
      simp
    have h2 : (u ++ t).take u.length = u := by
      rw [List.take_append_eq_append_take]
      simp
    have h3 : u = X.take u.length := by
      calc u = (u ++ t).take u.length := h2.symm
        _ = (X ++ Z).take u.length := by rw [ht]
        _ = X.take u.length := h1
    have h4 : u ++ X.drop u.length = X.take u.length ++ X.drop u.length := by
      rw [← h3]
    exact isPrefixOf_iff.mpr
      ⟨X.drop u.length, h4.trans (List.take_append_drop u.length X)⟩
  · right
    constructor
    · have h1 : (u ++ t).take X.length = u.take X.length := by
        rw [List.take_append_eq_append_take]
        have h0 : X.length - u.length = 0 := by omega
        rw [h0]
        simp
      have h2 : (X ++ Z).take X.length = X := by
        rw [List.take_append_eq_append_take]
        simp
      have h3 : X = u.take X.length := by
        calc X = (X ++ Z).take X.length := h2.symm
          _ = (u ++ t).take X.length := by rw [← ht]
          _ = u.take X.length := h1
      have h4 : X ++ u.drop X.length = u.take X.length ++ u.drop X.length := by
        rw [← h3]
      exact isPrefixOf_iff.mpr
        ⟨u.drop X.length, h4.trans (List.take_append_drop X.length u)⟩
    · have h5 : (u ++ t).drop X.length = u.drop X.length ++ t := by
        rw [List.drop_append_eq_append_drop]
        have h0 : X.length - u.length = 0 := by omega
        rw [h0]
        simp
      have h6 : (X ++ Z).drop X.length = Z := List.drop_left X Z
      refine isPrefixOf_iff.mpr ⟨t, ?_⟩
      rw [← h6, ← ht, h5]

theorem occ_split {u s : List Char} {k : Nat} (h : u.isPrefixOf (s.drop k) = true) :
    s = s.take k ++ u ++ s.drop (k + u.length) := by
  rcases isPrefixOf_iff.mp h with ⟨t, ht⟩
  have hd : s.drop (k + u.length) = t := by
    rw [← List.drop_drop, ← ht, List.drop_left]
  rw [hd, List.append_assoc, ht]
  exact (List.take_append_drop k s).symm

/-- A pfx of equal length is the list itself. -/
theorem pfx_eq_of_length {u v : List Char} (h : u.isPrefixOf v = true)
    (hl : v.length ≤ u.length) : u = v := by
  rcases isPrefixOf_iff.mp h with ⟨t, ht⟩
  have hlen := congrArg List.length ht
  rw [List.length_append] at hlen
  have ht0 : t.length = 0 := by omega
  rw [List.length_eq_zero.mp ht0, List.append_nil] at ht
  exact ht

end PrefixCases

section CrossingLemmas

/-- If no nonempty tail of u is a prefix of W, and W is at least as long as
u, then any occurrence of u in X ++ (W ++ Z) that starts inside X lies
entirely inside X. -/
theorem no_occ_start_in_left {u X W Z : List Char}
    (hW1 : ∀ k, 0 < k → k < u.length → (u.drop k).isPrefixOf W = false)
    (hW2 : u.length ≤ W.length) :
    ∀ i, i < X.length → u.isPrefixOf ((X ++ (W ++ Z)).drop i) = true →
      u.isPrefixOf (X.drop i) = true := by
  intro i hi h
  rw [drop_app_le (Nat.le_of_lt hi)] at h
  rcases pfx_app_cases h with h1 | ⟨h2, h3⟩
  · exact h1
  · have hk : (X.drop i).length = X.length - i := List.length_drop i X
    have hkpos : 0 < (X.drop i).length := by omega
    have hkle : (X.drop i).length ≤ u.length := prefix_length_le h2
    by_cases hkq : u.length ≤ (X.drop i).length
    · have he : X.drop i = u := pfx_eq_of_length h2 hkq
      rw [he]
      exact pfx_refl u
    · exfalso
      rcases pfx_app_cases h3 with h4 | ⟨h5, _⟩
      · have hf := hW1 (X.drop i).length hkpos (by omega)
        rw [hf] at h4
        exact Bool.false_ne_true h4
      · have hlen := prefix_length_le h5
        have hdl : (u.drop (X.drop i).length).length = u.length - (X.drop i).length :=
          List.length_drop _ u
        omega

/-- If u occurs nowhere inside W and no nonempty tail of W is a prefix of u,
then no occurrence of u in W ++ Z starts strictly inside W (after index
t0, which is 0 to exclude all of W or 1 to allow an occurrence at its head). -/
theorem no_occ_start_in_mid {u W Z : List Char} (t0 : Nat)
    (h1 : ∀ t, t0 ≤ t → t < W.length → u.isPrefixOf (W.drop t) = false)
    (h2 : ∀ t, t0 ≤ t → t < W.length → (W.drop t).isPrefixOf u = false) :
    ∀ t, t0 ≤ t → t < W.length → ¬ u.isPrefixOf ((W ++ Z).drop t) = true := by
  intro t ht0 ht h
  rw [drop_app_le (Nat.le_of_lt ht)] at h
  rcases pfx_app_cases h with ha | ⟨hb, _⟩
  · rw [h1 t ht0 ht] at ha
    exact Bool.false_ne_true ha
  · rw [h2 t ht0 ht] at hb
    exact Bool.false_ne_true hb

/-- The concrete compatibility facts between the pending literal and the
replacement literal: no nonempty tail of the one is a prefix of the other,
and the pending literal occurs nowhere inside the replacement literal. -/
theorem pending_repl_facts :
    (∀ k < pendingLit.length, 0 < k →
      (pendingLit.drop k).isPrefixOf replLit = false) ∧
    (∀ t < replLit.length, pendingLit.isPrefixOf (replLit.drop t) = false) ∧
    (∀ t < replLit.length, (replLit.drop t).isPrefixOf pendingLit = false) := by
  decide

/-- The pending literal cannot overlap itself: no proper nonempty tail of it
is one of its prefixes, and it is not a proper prefix of such a tail. -/
theorem pending_self_facts :
    (∀ k < pendingLit.length, 0 < k →
      (pendingLit.drop k).isPrefixOf pendingLit = false) ∧
    (∀ k < pendingLit.length, 0 < k →
      pendingLit.isPrefixOf (pendingLit.drop k) = false) := by
  decide

theorem pending_length : pendingLit.length = 17 := by decide

theorem repl_length : replLit.length = 54 := by decide

theorem pending_ne : pendingLit ≠ [] := by decide

theorem repl_no_pending : countOcc pendingLit replLit = 0 := by decide

end CrossingLemmas

section CountingLemmas

theorem countOcc_append_split (u X Z : List Char) :
    countOcc u (X ++ Z) =
      (List.range X.length).countP (fun i => u.isPrefixOf ((X ++ Z).drop i)) +
        countOcc u Z := by
  unfold countOcc
  rw [List.length_append, List.range_add, List.countP_append, List.countP_map]
  congr 1
  apply List.countP_congr
  intro i hi
  simp only [Function.comp]
  have hd : (X ++ Z).drop (X.length + i) = Z.drop i := by
    rw [drop_app_ge (by omega)]
    congr 1
    omega
  rw [hd]

theorem countOcc_append_inside (u X Z : List Char)
    (h : ∀ i, i < X.length → u.isPrefixOf ((X ++ Z).drop i) = true →
      u.isPrefixOf (X.drop i) = true) :
    countOcc u (X ++ Z) = countOcc u X + countOcc u Z := by
  rw [countOcc_append_split]
  congr 1
  apply List.countP_congr
  intro i hi
  have hi' : i < X.length := List.mem_range.mp hi
  constructor
  · intro hc
    exact h i hi' hc
  · intro hx
    rw [drop_app_le (by omega)]
    exact pfx_extend hx

theorem countOcc_append_ge (u X Z : List Char) :
    countOcc u X + countOcc u Z ≤ countOcc u (X ++ Z) := by
  rw [countOcc_append_split]
  have h : countOcc u X ≤
      (List.range X.length).countP (fun i => u.isPrefixOf ((X ++ Z).drop i)) := by
    apply List.countP_mono_left
    intro i hi hp
    have hi' : i < X.length := List.mem_range.mp hi
    rw [drop_app_le (by omega)]
    exact pfx_extend hp
  omega

theorem countOcc_mid (u X Z : List Char) (hu : u ≠ []) :
    countOcc u X + 1 + countOcc u Z ≤ countOcc u (X ++ (u ++ Z)) := by
  have h1 := countOcc_append_ge u X (u ++ Z)
  have h2 : 1 + countOcc u Z ≤ countOcc u (u ++ Z) := by
    rw [countOcc_append_split]
    have hp : 0 < (List.range u.length).countP
        (fun i => u.isPrefixOf ((u ++ Z).drop i)) := by
      rw [List.countP_pos_iff]
      refine ⟨0, List.mem_range.mpr (qlen_pos hu), ?_⟩
      simp only [List.drop_zero]
      exact pfx_extend (pfx_refl u)
    omega
  omega

/-- Splicing the replacement literal between two stretches adds no pending
occurrence: the count of the spliced string is the sum of the counts of the
two stretches. -/
theorem countOcc_splice_repl (X Z : List Char) :
    countOcc pendingLit (X ++ (replLit ++ Z)) =
      countOcc pendingLit X + countOcc pendingLit Z := by
  rw [countOcc_append_inside pendingLit X (replLit ++ Z)
    (no_occ_start_in_left (fun k hpos hlt => pending_repl_facts.1 k hlt hpos)
      (by rw [pending_length, repl_length]; omega))]
  congr 1
  have hins : ∀ i, i < replLit.length →
      pendingLit.isPrefixOf ((replLit ++ Z).drop i) = true →
      pendingLit.isPrefixOf (replLit.drop i) = true := by
    intro i hi hocc
    exact absurd hocc
      (no_occ_start_in_mid 0 (fun t _ ht => pending_repl_facts.2.1 t ht)
        (fun t _ ht => pending_repl_facts.2.2 t ht) i (Nat.zero_le i) hi)
  rw [countOcc_append_inside pendingLit replLit Z hins, repl_no_pending,
    Nat.zero_add]

end CountingLemmas

section CountStep

/-- The identifier literal is never empty. -/
theorem taskIdLit_ne (n : Nat) : taskIdLit n ≠ [] := by
  unfold taskIdLit
  intro h
  have := congrArg List.length h
  simp [List.length_append] at this

/-- One loop iteration never increases the number of pending occurrences:
the matched pending text is removed, the replacement contains none and
creates none at its seams. -/
theorem subAllF_count_le (p : List Char) :
    ∀ f s, s.length ≤ f →
      countOcc pendingLit (subAllF p pendingLit replLit f s) ≤
        countOcc pendingLit s := by
  intro f
  induction f using Nat.strong_induction_on with
  | _ f ih =>
    intro s hle
    match f with
    | 0 => exact Nat.le_refl _
    | f + 1 =>
      show countOcc pendingLit (subAllF p pendingLit replLit (f + 1) s) ≤ _
      unfold subAllF
      cases hfp : findSub p s with
      | none => exact Nat.le_refl _
      | some i =>
        dsimp only
        cases hfq : findSub pendingLit (s.drop (i + p.length)) with
        | none => exact Nat.le_refl _
        | some j =>
          dsimp only
          have hip := findSub_some_pfx hfp
          have hiq := findSub_some_pfx hfq
          have hqb : j + pendingLit.length ≤ (s.drop (i + p.length)).length :=
            findSub_bound hfq pending_ne
          have hsl : (s.drop (i + p.length)).length = s.length - (i + p.length) :=
            List.length_drop _ s
          have h17 := pending_length
          have hi : i ≤ s.length := by omega
          have hmerge := take_merge hip hi j
          rw [List.drop_drop] at hiq
          have hrest : (s.drop (i + p.length)).drop (j + pendingLit.length) =
              s.drop (i + p.length + j + pendingLit.length) := by
            rw [List.drop_drop, ← Nat.add_assoc]
          rw [hmerge, hrest, List.append_assoc, countOcc_splice_repl]
          have hrlen : (s.drop (i + p.length + j + pendingLit.length)).length ≤ f := by
            rw [List.length_drop]
            omega
          have hrec := ih f (Nat.lt_succ_self f)
            (s.drop (i + p.length + j + pendingLit.length)) hrlen
          have hsplit := occ_split hiq
          have hin : countOcc pendingLit (s.take (i + p.length + j)) + 1 +
              countOcc pendingLit (s.drop (i + p.length + j + pendingLit.length)) ≤
              countOcc pendingLit s := by
            conv_rhs => rw [hsplit]
            rw [List.append_assoc]
            exact countOcc_mid pendingLit _ _ pending_ne
          omega

theorem subTask_count_le (n : Nat) (s : List Char) :
    countOcc pendingLit (subTask n s) ≤ countOcc pendingLit s := by
  unfold subTask subAll
  exact subAllF_count_le (taskIdLit n) s.length s (Nat.le_refl _)

theorem foldl_subTask_count_le :
    ∀ (l : List Nat) (s : List Char),
      countOcc pendingLit (l.foldl (fun c n => subTask n c) s) ≤
        countOcc pendingLit s := by
  intro l
  induction l with
  | nil => intro s; exact Nat.le_refl _
  | cons m l ih =>
    intro s
    rw [List.foldl_cons]
    exact Nat.le_trans (ih (subTask m s)) (subTask_count_le m s)

end CountStep

section CountClaim

/-- C10: every iteration of the loop weakly decreases the number of
occurrences of the pending status text in the in-memory content — each
substitution removes the matched occurrence and the replacement introduces
none — so the count after the whole run is at most the count before. -/
theorem c10_pending_count_monotone :
    (∀ (n : Nat) (s : List Char),
      countOcc pendingLit (subTask n s) ≤ countOcc pendingLit s) ∧
    (∀ s : List Char,
      countOcc pendingLit (updateAll s) ≤ countOcc pendingLit s) := by
  refine ⟨subTask_count_le, ?_⟩
  intro s
  unfold updateAll
  exact foldl_subTask_count_le _ s

end CountClaim

section TaskIdFacts

/-- Every in-range identifier literal has length 21. -/
theorem taskIdLit_len : ∀ n ∈ List.range' 1 30, (taskIdLit n).length = 21 := by
  decide

/-- Compatibility of the pending literal with each in-range identifier
literal: no nonempty tail of the one is a prefix of the other, and the
pending literal starts nowhere inside an identifier literal. -/
theorem pending_taskId_facts : ∀ n ∈ List.range' 1 30,
    (∀ k < pendingLit.length, 0 < k →
      (pendingLit.drop k).isPrefixOf (taskIdLit n) = false) ∧
    (∀ t < (taskIdLit n).length,
      pendingLit.isPrefixOf ((taskIdLit n).drop t) = false) ∧
    (∀ t < (taskIdLit n).length,
      ((taskIdLit n).drop t).isPrefixOf pendingLit = false) := by
  decide

end TaskIdFacts

section CharacterizeOccurrences

/-- Where a pending occurrence can sit in a document of the form
A ++ id ++ B ++ pending ++ Y with no pending occurrence inside B: wholly
inside A, exactly at the marked pending field, or in the tail Y. -/
theorem qocc_char_pend (n : Nat) (hn : n ∈ List.range' 1 30)
    (A B Y : List Char) (hB : occFree pendingLit B) :
    ∀ t, pendingLit.isPrefixOf
        ((A ++ (taskIdLit n ++ (B ++ (pendingLit ++ Y)))).drop t) = true →
      t + pendingLit.length ≤ A.length ∨
      t = A.length + (taskIdLit n).length + B.length ∨
      A.length + (taskIdLit n).length + B.length + pendingLit.length ≤ t := by
  intro t h
  have hplen := taskIdLit_len n hn
  have h17 := pending_length
  by_cases c1 : t < A.length
  · left
    have hin := no_occ_start_in_left
      (fun k hk hlt => (pending_taskId_facts n hn).1 k hlt hk)
      (by rw [pending_length, hplen]; omega) t c1 h
    have hl := prefix_length_le hin
    rw [List.length_drop] at hl
    omega
  · push_neg at c1
    by_cases c2 : t < A.length + (taskIdLit n).length
    · exfalso
      rw [drop_app_ge c1] at h
      exact no_occ_start_in_mid 0
        (fun u' _ hu' => (pending_taskId_facts n hn).2.1 u' hu')
        (fun u' _ hu' => (pending_taskId_facts n hn).2.2 u' hu')
        (t - A.length) (Nat.zero_le _) (by omega) h
    · push_neg at c2
      by_cases c3 : t < A.length + (taskIdLit n).length + B.length
      · exfalso
        rw [drop_app_ge c1, drop_app_ge (by omega)] at h
        have hin := no_occ_start_in_left (Z := Y)
          (fun k hk hlt => pending_self_facts.1 k hlt hk)
          (Nat.le_refl pendingLit.length)
          (t - A.length - (taskIdLit n).length) (by omega) h
        exact hB _ (by omega) hin
      · push_neg at c3
        by_cases c4 : t = A.length + (taskIdLit n).length + B.length
        · exact Or.inr (Or.inl c4)
        · by_cases c5 : t < A.length + (taskIdLit n).length + B.length +
              pendingLit.length
          · exfalso
            rw [drop_app_ge c1, drop_app_ge (by omega),
              drop_app_ge (by omega)] at h
            exact no_occ_start_in_mid 1
              (fun u' hu1 hu2 => pending_self_facts.2 u' hu2 hu1)
              (fun u' hu1 hu2 => pending_self_facts.1 u' hu2 hu1)
              (t - A.length - (taskIdLit n).length - B.length)
              (by omega) (by omega) h
          · right; right; omega

/-- Where a pending occurrence can sit in a document of the form
A ++ id ++ B ++ replacement ++ Y with no pending occurrence inside B:
wholly inside A or in the tail Y. -/
theorem qocc_char_done (n : Nat) (hn : n ∈ List.range' 1 30)
    (A B Y : List Char) (hB : occFree pendingLit B) :
    ∀ t, pendingLit.isPrefixOf
        ((A ++ (taskIdLit n ++ (B ++ (replLit ++ Y)))).drop t) = true →
      t + pendingLit.length ≤ A.length ∨
      A.length + (taskIdLit n).length + B.length + replLit.length ≤ t := by
  intro t h
  have hplen := taskIdLit_len n hn
  have h17 := pending_length
  have h54 := repl_length
  by_cases c1 : t < A.length
  · left
    have hin := no_occ_start_in_left
      (fun k hk hlt => (pending_taskId_facts n hn).1 k hlt hk)
      (by rw [pending_length, hplen]; omega) t c1 h
    have hl := prefix_length_le hin
    rw [List.length_drop] at hl
    omega
  · push_neg at c1
    by_cases c2 : t < A.length + (taskIdLit n).length
    · exfalso
      rw [drop_app_ge c1] at h
      exact no_occ_start_in_mid 0
        (fun u' _ hu' => (pending_taskId_facts n hn).2.1 u' hu')
        (fun u' _ hu' => (pending_taskId_facts n hn).2.2 u' hu')
        (t - A.length) (Nat.zero_le _) (by omega) h
    · push_neg at c2
      by_cases c3 : t < A.length + (taskIdLit n).length + B.length
      · exfalso
        rw [drop_app_ge c1, drop_app_ge (by omega)] at h
        have hin := no_occ_start_in_left (Z := Y)
          (fun k hk hlt => pending_repl_facts.1 k hlt hk)
          (by rw [pending_length, repl_length]; omega)
          (t - A.length - (taskIdLit n).length) (by omega) h
        exact hB _ (by omega) hin
      · push_neg at c3
        by_cases c5 : t < A.length + (taskIdLit n).length + B.length +
            replLit.length
        · exfalso
          rw [drop_app_ge c1, drop_app_ge (by omega),
            drop_app_ge (by omega)] at h
          exact no_occ_start_in_mid 0
            (fun u' _ hu' => pending_repl_facts.2.1 u' hu')
            (fun u' _ hu' => pending_repl_facts.2.2 u' hu')
            (t - A.length - (taskIdLit n).length - B.length)
            (Nat.zero_le _) (by omega) h
        · right; omega

end CharacterizeOccurrences

section StepShape

theorem take_app_le {X Z : List Char} {i : Nat} (h : i ≤ X.length) :
    (X ++ Z).take i = X.take i := by
  rw [List.take_append_eq_append_take]
  have h0 : i - X.length = 0 := by omega
  rw [h0]
  simp

theorem take_app_ge {X Z : List Char} {i : Nat} (h : X.length ≤ i) :
    (X ++ Z).take i = X ++ Z.take (i - X.length) := by
  rw [List.take_append_eq_append_take, List.take_of_length_le h]

/-- One-step unfolding of the fuel-indexed substitution at positive fuel. -/
theorem subAllF_succ (p q r : List Char) (f : Nat) (s : List Char) :
    subAllF p q r (f + 1) s =
      match findSub p s with
      | none => s
      | some i =>
        match findSub q (s.drop (i + p.length)) with
        | none => s
        | some j =>
          s.take i ++ p ++ (s.drop (i + p.length)).take j ++ r ++
            subAllF p q r f ((s.drop (i + p.length)).drop (j + q.length)) :=
  rfl

/-- The shape of one successful match-and-replace inside the fuel-indexed
substitution, together with the fact that the matched pending field is a
real occurrence. -/
theorem subAllF_step_shape {p : List Char} {f : Nat} {s : List Char} {i j : Nat}
    (hfp : findSub p s = some i)
    (hfq : findSub pendingLit (s.drop (i + p.length)) = some j) :
    subAllF p pendingLit replLit (f + 1) s =
      s.take (i + p.length + j) ++ replLit ++
        subAllF p pendingLit replLit f
          (s.drop (i + p.length + j + pendingLit.length)) ∧
    pendingLit.isPrefixOf (s.drop (i + p.length + j)) = true := by
  constructor
  · have hip := findSub_some_pfx hfp
    have hqb := findSub_bound hfq pending_ne
    have hsl := List.length_drop (i + p.length) s
    have h17 := pending_length
    have hi : i ≤ s.length := by omega
    rw [subAllF_succ, hfp]
    dsimp only
    rw [hfq]
    dsimp only
    rw [take_merge hip hi j, List.drop_drop, ← Nat.add_assoc]
  · have hiq := findSub_some_pfx hfq
    rw [List.drop_drop] at hiq
    exact hiq

end StepShape

section StepLemmas

/-- One iteration on a document in pending form: the protected stretch
id ++ B ++ pending is either preserved or its pending field is rewritten to
the replacement text; everything else about the document may change. -/
theorem step_pend (n m : Nat) (hn : n ∈ List.range' 1 30)
    (hm : m ∈ List.range' 1 30) (B : List Char) (hB : occFree pendingLit B) :
    ∀ f A Y, (A ++ (taskIdLit n ++ (B ++ (pendingLit ++ Y)))).length ≤ f →
      (∃ A2 Y2,
        subAllF (taskIdLit m) pendingLit replLit f
            (A ++ (taskIdLit n ++ (B ++ (pendingLit ++ Y)))) =
          A2 ++ (taskIdLit n ++ (B ++ (pendingLit ++ Y2)))) ∨
      (∃ A2 Y2,
        subAllF (taskIdLit m) pendingLit replLit f
            (A ++ (taskIdLit n ++ (B ++ (pendingLit ++ Y)))) =
          A2 ++ (taskIdLit n ++ (B ++ (replLit ++ Y2)))) := by
  intro f
  induction f using Nat.strong_induction_on with
  | _ f ih =>
    intro A Y hle
    have hplen := taskIdLit_len n hn
    have hmlen := taskIdLit_len m hm
    have h17 := pending_length
    have hslen : (A ++ (taskIdLit n ++ (B ++ (pendingLit ++ Y)))).length =
        A.length + ((taskIdLit n).length +
          (B.length + (pendingLit.length + Y.length))) := by
      simp [List.length_append]
    match f with
    | 0 => exact absurd hle (by omega)
    | f + 1 =>
      cases hfp : findSub (taskIdLit m)
          (A ++ (taskIdLit n ++ (B ++ (pendingLit ++ Y)))) with
      | none =>
        left
        refine ⟨A, Y, ?_⟩
        unfold subAllF
        rw [hfp]
      | some i =>
        cases hfq : findSub pendingLit
            ((A ++ (taskIdLit n ++ (B ++ (pendingLit ++ Y)))).drop
              (i + (taskIdLit m).length)) with
        | none =>
          left
          refine ⟨A, Y, ?_⟩
          unfold subAllF
          rw [hfp]
          dsimp only
          rw [hfq]
        | some j =>
          obtain ⟨hshape, hocc⟩ := subAllF_step_shape (f := f) hfp hfq
          rcases qocc_char_pend n hn A B Y hB (i + (taskIdLit m).length + j)
              hocc with hc | hc | hc
          · -- matched pending lies wholly inside A
            rw [take_app_le (by omega), drop_app_le (by omega)] at hshape
            have hrlen :
                ((A.drop (i + (taskIdLit m).length + j + pendingLit.length)) ++
                  (taskIdLit n ++ (B ++ (pendingLit ++ Y)))).length ≤ f := by
              rw [hslen] at hle
              simp only [List.length_append, List.length_drop]
              omega
            rcases ih f (Nat.lt_succ_self f) _ Y hrlen with
              ⟨A2, Y2, hrec⟩ | ⟨A2, Y2, hrec⟩
            · left
              refine ⟨A.take (i + (taskIdLit m).length + j) ++ (replLit ++ A2),
                Y2, ?_⟩
              rw [hshape, hrec]
              simp [List.append_assoc]
            · right
              refine ⟨A.take (i + (taskIdLit m).length + j) ++ (replLit ++ A2),
                Y2, ?_⟩
              rw [hshape, hrec]
              simp [List.append_assoc]
          · -- matched pending is exactly the marked field
            right
            have hassoc : A ++ (taskIdLit n ++ (B ++ (pendingLit ++ Y))) =
                (A ++ taskIdLit n ++ B) ++ (pendingLit ++ Y) := by
              simp [List.append_assoc]
            have hqp : i + (taskIdLit m).length + j =
                (A ++ taskIdLit n ++ B).length := by
              simp only [List.length_append]
              omega
            have htake : (A ++ (taskIdLit n ++ (B ++ (pendingLit ++ Y)))).take
                (i + (taskIdLit m).length + j) = A ++ taskIdLit n ++ B := by
              rw [hassoc, hqp, List.take_left]
            have hdrop : (A ++ (taskIdLit n ++ (B ++ (pendingLit ++ Y)))).drop
                (i + (taskIdLit m).length + j + pendingLit.length) = Y := by
              rw [hassoc, drop_app_ge (by omega)]
              have he : i + (taskIdLit m).length + j + pendingLit.length -
                  (A ++ taskIdLit n ++ B).length = pendingLit.length := by
                omega
              rw [he, List.drop_left]
            rw [htake, hdrop] at hshape
            refine ⟨A, subAllF (taskIdLit m) pendingLit replLit f Y, ?_⟩
            rw [hshape]
            simp [List.append_assoc]
          · -- matched pending lies in the tail Y
            left
            have hassoc : A ++ (taskIdLit n ++ (B ++ (pendingLit ++ Y))) =
                (A ++ taskIdLit n ++ B ++ pendingLit) ++ Y := by
              simp [List.append_assoc]
            have hblen : (A ++ taskIdLit n ++ B ++ pendingLit).length =
                A.length + (taskIdLit n).length + B.length +
                  pendingLit.length := by
              simp only [List.length_append]
            have htake : (A ++ (taskIdLit n ++ (B ++ (pendingLit ++ Y)))).take
                (i + (taskIdLit m).length + j) =
                (A ++ taskIdLit n ++ B ++ pendingLit) ++
                  Y.take (i + (taskIdLit m).length + j -
                    (A ++ taskIdLit n ++ B ++ pendingLit).length) := by
              rw [hassoc, take_app_ge (by omega)]
            have hdrop : (A ++ (taskIdLit n ++ (B ++ (pendingLit ++ Y)))).drop
                (i + (taskIdLit m).length + j + pendingLit.length) =
                Y.drop (i + (taskIdLit m).length + j + pendingLit.length -
                  (A ++ taskIdLit n ++ B ++ pendingLit).length) := by
              rw [hassoc, drop_app_ge (by omega)]
            rw [htake, hdrop] at hshape
            refine ⟨A, Y.take (i + (taskIdLit m).length + j -
                (A ++ taskIdLit n ++ B ++ pendingLit).length) ++
              (replLit ++ subAllF (taskIdLit m) pendingLit replLit f
                (Y.drop (i + (taskIdLit m).length + j + pendingLit.length -
                  (A ++ taskIdLit n ++ B ++ pendingLit).length))), ?_⟩
            rw [hshape]
            simp [List.append_assoc]

/-- One iteration on a document in done form: the protected stretch
id ++ B ++ replacement text is preserved. -/
theorem step_done (n m : Nat) (hn : n ∈ List.range' 1 30)
    (hm : m ∈ List.range' 1 30) (B : List Char) (hB : occFree pendingLit B) :
    ∀ f A Y, (A ++ (taskIdLit n ++ (B ++ (replLit ++ Y)))).length ≤ f →
      ∃ A2 Y2,
        subAllF (taskIdLit m) pendingLit replLit f
            (A ++ (taskIdLit n ++ (B ++ (replLit ++ Y)))) =
          A2 ++ (taskIdLit n ++ (B ++ (replLit ++ Y2))) := by
  intro f
  induction f using Nat.strong_induction_on with
  | _ f ih =>
    intro A Y hle
    have hplen := taskIdLit_len n hn
    have hmlen := taskIdLit_len m hm
    have h17 := pending_length
    have h54 := repl_length
    have hslen : (A ++ (taskIdLit n ++ (B ++ (replLit ++ Y)))).length =
        A.length + ((taskIdLit n).length +
          (B.length + (replLit.length + Y.length))) := by
      simp [List.length_append]
    match f with
    | 0 => exact absurd hle (by omega)
    | f + 1 =>
      cases hfp : findSub (taskIdLit m)
          (A ++ (taskIdLit n ++ (B ++ (replLit ++ Y)))) with
      | none =>
        refine ⟨A, Y, ?_⟩
        unfold subAllF
        rw [hfp]
      | some i =>
        cases hfq : findSub pendingLit
            ((A ++ (taskIdLit n ++ (B ++ (replLit ++ Y)))).drop
              (i + (taskIdLit m).length)) with
        | none =>
          refine ⟨A, Y, ?_⟩
          unfold subAllF
          rw [hfp]
          dsimp only
          rw [hfq]
        | some j =>
          obtain ⟨hshape, hocc⟩ := subAllF_step_shape (f := f) hfp hfq
          rcases qocc_char_done n hn A B Y hB (i + (taskIdLit m).length + j)
              hocc with hc | hc
          · -- matched pending lies wholly inside A
            rw [take_app_le (by omega), drop_app_le (by omega)] at hshape
            have hrlen :
                ((A.drop (i + (taskIdLit m).length + j + pendingLit.length)) ++
                  (taskIdLit n ++ (B ++ (replLit ++ Y)))).length ≤ f := by
              rw [hslen] at hle
              simp only [List.length_append, List.length_drop]
              omega
            obtain ⟨A2, Y2, hrec⟩ := ih f (Nat.lt_succ_self f) _ Y hrlen
            refine ⟨A.take (i + (taskIdLit m).length + j) ++ (replLit ++ A2),
              Y2, ?_⟩
            rw [hshape, hrec]
            simp [List.append_assoc]
          · -- matched pending lies in the tail Y
            have hassoc : A ++ (taskIdLit n ++ (B ++ (replLit ++ Y))) =
                (A ++ taskIdLit n ++ B ++ replLit) ++ Y := by
              simp [List.append_assoc]
            have hblen : (A ++ taskIdLit n ++ B ++ replLit).length =
                A.length + (taskIdLit n).length + B.length +
                  replLit.length := by
              simp only [List.length_append]
            have htake : (A ++ (taskIdLit n ++ (B ++ (replLit ++ Y)))).take
                (i + (taskIdLit m).length + j) =
                (A ++ taskIdLit n ++ B ++ replLit) ++
                  Y.take (i + (taskIdLit m).length + j -
                    (A ++ taskIdLit n ++ B ++ replLit).length) := by
              rw [hassoc, take_app_ge (by omega)]
            have hdrop : (A ++ (taskIdLit n ++ (B ++ (replLit ++ Y)))).drop
                (i + (taskIdLit m).length + j + pendingLit.length) =
                Y.drop (i + (taskIdLit m).length + j + pendingLit.length -
                  (A ++ taskIdLit n ++ B ++ replLit).length) := by
              rw [hassoc, drop_app_ge (by omega)]
            rw [htake, hdrop] at hshape
            refine ⟨A, Y.take (i + (taskIdLit m).length + j -
                (A ++ taskIdLit n ++ B ++ replLit).length) ++
              (replLit ++ subAllF (taskIdLit m) pendingLit replLit f
                (Y.drop (i + (taskIdLit m).length + j + pendingLit.length -
                  (A ++ taskIdLit n ++ B ++ replLit).length))), ?_⟩
            rw [hshape]
            simp [List.append_assoc]

/-- The iteration for the protected identifier itself, on a document in
pending form, always rewrites the marked pending field (directly, or after
rewriting earlier pending occurrences inside A): the result is in done
form. -/
theorem step_fire (n : Nat) (hn : n ∈ List.range' 1 30)
    (B : List Char) (hB : occFree pendingLit B) :
    ∀ f A Y, (A ++ (taskIdLit n ++ (B ++ (pendingLit ++ Y)))).length ≤ f →
      ∃ A2 Y2,
        subAllF (taskIdLit n) pendingLit replLit f
            (A ++ (taskIdLit n ++ (B ++ (pendingLit ++ Y)))) =
          A2 ++ (taskIdLit n ++ (B ++ (replLit ++ Y2))) := by
  intro f
  induction f using Nat.strong_induction_on with
  | _ f ih =>
    intro A Y hle
    have hplen := taskIdLit_len n hn
    have h17 := pending_length
    have hslen : (A ++ (taskIdLit n ++ (B ++ (pendingLit ++ Y)))).length =
        A.length + ((taskIdLit n).length +
          (B.length + (pendingLit.length + Y.length))) := by
      simp [List.length_append]
    match f with
    | 0 => exact absurd hle (by omega)
    | f + 1 =>
      have hoccp : (taskIdLit n).isPrefixOf
          ((A ++ (taskIdLit n ++ (B ++ (pendingLit ++ Y)))).drop
            A.length) = true := by
        rw [List.drop_left]
        exact isPrefixOf_iff.mpr ⟨B ++ (pendingLit ++ Y), rfl⟩
      obtain ⟨i, hfp, hile⟩ := findSub_of_occ hoccp
      have hassoc : A ++ (taskIdLit n ++ (B ++ (pendingLit ++ Y))) =
          (A ++ taskIdLit n ++ B) ++ (pendingLit ++ Y) := by
        simp [List.append_assoc]
      have hlen3 : (A ++ taskIdLit n ++ B).length =
          A.length + (taskIdLit n).length + B.length := by
        simp only [List.length_append]
      have hoccq : pendingLit.isPrefixOf
          ((A ++ (taskIdLit n ++ (B ++ (pendingLit ++ Y)))).drop
            (A.length + (taskIdLit n).length + B.length)) = true := by
        rw [hassoc, ← hlen3, List.drop_left]
        exact isPrefixOf_iff.mpr ⟨Y, rfl⟩
      have hrel : pendingLit.isPrefixOf
          (((A ++ (taskIdLit n ++ (B ++ (pendingLit ++ Y)))).drop
              (i + (taskIdLit n).length)).drop
            (A.length + (taskIdLit n).length + B.length -
              (i + (taskIdLit n).length))) = true := by
        rw [List.drop_drop]
        have he : i + (taskIdLit n).length +
            (A.length + (taskIdLit n).length + B.length -
              (i + (taskIdLit n).length)) =
            A.length + (taskIdLit n).length + B.length := by
          omega
        rw [he]
        exact hoccq
      obtain ⟨j, hfq, hjle⟩ := findSub_of_occ hrel
      obtain ⟨hshape, hocc⟩ := subAllF_step_shape (f := f) hfp hfq
      have hqle : i + (taskIdLit n).length + j ≤
          A.length + (taskIdLit n).length + B.length := by
        omega
      rcases qocc_char_pend n hn A B Y hB (i + (taskIdLit n).length + j)
          hocc with hc | hc | hc
      · -- inside A: recursion keeps the pending form and later fires
        rw [take_app_le (by omega), drop_app_le (by omega)] at hshape
        have hrlen :
            ((A.drop (i + (taskIdLit n).length + j + pendingLit.length)) ++
              (taskIdLit n ++ (B ++ (pendingLit ++ Y)))).length ≤ f := by
          rw [hslen] at hle
          simp only [List.length_append, List.length_drop]
          omega
        obtain ⟨A2, Y2, hrec⟩ := ih f (Nat.lt_succ_self f) _ Y hrlen
        refine ⟨A.take (i + (taskIdLit n).length + j) ++ (replLit ++ A2),
          Y2, ?_⟩
        rw [hshape, hrec]
        simp [List.append_assoc]
      · -- the marked pending field is matched and rewritten
        have hqp : i + (taskIdLit n).length + j =
            (A ++ taskIdLit n ++ B).length := by
          omega
        have htake : (A ++ (taskIdLit n ++ (B ++ (pendingLit ++ Y)))).take
            (i + (taskIdLit n).length + j) = A ++ taskIdLit n ++ B := by
          rw [hassoc, hqp, List.take_left]
        have hdrop : (A ++ (taskIdLit n ++ (B ++ (pendingLit ++ Y)))).drop
            (i + (taskIdLit n).length + j + pendingLit.length) = Y := by
          rw [hassoc, drop_app_ge (by omega)]
          have he : i + (taskIdLit n).length + j + pendingLit.length -
              (A ++ taskIdLit n ++ B).length = pendingLit.length := by
            omega
          rw [he, List.drop_left]
        rw [htake, hdrop] at hshape
        refine ⟨A, subAllF (taskIdLit n) pendingLit replLit f Y, ?_⟩
        rw [hshape]
        simp [List.append_assoc]
      · exact absurd hc (by omega)

end StepLemmas

section FoldLemmas

/-- The done form is preserved by the whole remaining loop. -/
theorem fold_done (n : Nat) (hn : n ∈ List.range' 1 30) (B : List Char)
    (hB : occFree pendingLit B) :
    ∀ (l : List Nat), (∀ m ∈ l, m ∈ List.range' 1 30) →
      ∀ A Y, ∃ A2 Y2,
        l.foldl (fun c k => subTask k c)
            (A ++ (taskIdLit n ++ (B ++ (replLit ++ Y)))) =
          A2 ++ (taskIdLit n ++ (B ++ (replLit ++ Y2))) := by
  intro l
  induction l with
  | nil => intro _ A Y; exact ⟨A, Y, rfl⟩
  | cons m l ih =>
    intro hl A Y
    rw [List.foldl_cons]
    obtain ⟨A2, Y2, hstep⟩ := step_done n m hn (hl m (List.mem_cons_self m l))
      B hB (A ++ (taskIdLit n ++ (B ++ (replLit ++ Y)))).length A Y
      (Nat.le_refl _)
    rw [show subTask m (A ++ (taskIdLit n ++ (B ++ (replLit ++ Y)))) =
      A2 ++ (taskIdLit n ++ (B ++ (replLit ++ Y2))) from hstep]
    exact ih (fun k hk => hl k (List.mem_cons_of_mem _ hk)) A2 Y2

/-- Running the loop over a list that contains the protected identifier, on
a document in pending form, always produces a document in done form: the
marked pending field has been rewritten, with the id and the stretch B
before it preserved. -/
theorem fold_fire (n : Nat) (hn : n ∈ List.range' 1 30) (B : List Char)
    (hB : occFree pendingLit B) :
    ∀ (l : List Nat), (∀ m ∈ l, m ∈ List.range' 1 30) → n ∈ l →
      ∀ A Y, ∃ A2 Y2,
        l.foldl (fun c k => subTask k c)
            (A ++ (taskIdLit n ++ (B ++ (pendingLit ++ Y)))) =
          A2 ++ (taskIdLit n ++ (B ++ (replLit ++ Y2))) := by
  intro l
  induction l with
  | nil => intro _ hmem; exact absurd hmem (List.not_mem_nil n)
  | cons m l ih =>
    intro hl hmem A Y
    rw [List.foldl_cons]
    by_cases hmn : m = n
    · subst hmn
      obtain ⟨A2, Y2, hstep⟩ := step_fire m hn B hB
        (A ++ (taskIdLit m ++ (B ++ (pendingLit ++ Y)))).length A Y
        (Nat.le_refl _)
      rw [show subTask m (A ++ (taskIdLit m ++ (B ++ (pendingLit ++ Y)))) =
        A2 ++ (taskIdLit m ++ (B ++ (replLit ++ Y2))) from hstep]
      exact fold_done m hn B hB l (fun k hk => hl k (List.mem_cons_of_mem _ hk))
        A2 Y2
    · have hnl : n ∈ l := by
        cases List.mem_cons.mp hmem with
        | inl h => exact absurd h.symm hmn
        | inr h => exact h
      rcases step_pend n m hn (hl m (List.mem_cons_self m l)) B hB
          (A ++ (taskIdLit n ++ (B ++ (pendingLit ++ Y)))).length A Y
          (Nat.le_refl _) with ⟨A2, Y2, hstep⟩ | ⟨A2, Y2, hstep⟩
      · rw [show subTask m (A ++ (taskIdLit n ++ (B ++ (pendingLit ++ Y)))) =
          A2 ++ (taskIdLit n ++ (B ++ (pendingLit ++ Y2))) from hstep]
        exact ih (fun k hk => hl k (List.mem_cons_of_mem _ hk)) hnl A2 Y2
      · rw [show subTask m (A ++ (taskIdLit n ++ (B ++ (pendingLit ++ Y)))) =
          A2 ++ (taskIdLit n ++ (B ++ (replLit ++ Y2))) from hstep]
        exact fold_done n hn B hB l (fun k hk => hl k (List.mem_cons_of_mem _ hk))
          A2 Y2

/-- Splitting an arbitrary stretch at its first pending occurrence. -/
theorem first_occ_split {u B : List Char} (h : ¬ occFree u B) :
    ∃ B1 B2, B = B1 ++ u ++ B2 ∧ occFree u B1 := by
  unfold occFree at h
  push_neg at h
  obtain ⟨i0, hlt, hocc⟩ := h
  obtain ⟨i, hfs, hile⟩ := findSub_of_occ hocc
  have hpfx := findSub_some_pfx hfs
  refine ⟨B.take i, B.drop (i + u.length), occ_split hpfx, ?_⟩
  intro k hk hkocc
  have hki : k < i := by
    rw [List.length_take] at hk
    omega
  rw [List.drop_take] at hkocc
  have hext : u.isPrefixOf (B.drop k) = true := by
    rcases isPrefixOf_iff.mp hkocc with ⟨t, ht⟩
    refine isPrefixOf_iff.mpr ⟨t ++ (B.drop k).drop (i - k), ?_⟩
    rw [← List.append_assoc, ht, List.take_append_drop]
  exact findSub_min hfs k hki hext

end FoldLemmas

section MainClaims

/-- C1: for an in-range task number n, any document containing the task id
literal followed (with no earlier pending field between, as the non-greedy
search requires) by a pending status field is written back with that status
field rewritten to the completed status, a newline, six spaces of
indentation, and the fixed completion date, the text between the id and the
status preserved. -/
theorem c1_pending_record_completed (n : Nat) (A B C : List Char)
    (h1 : 1 ≤ n) (h2 : n ≤ 30) (hB : occFree pendingLit B) :
    ∃ A2 C2, updateAll (A ++ taskIdLit n ++ B ++ pendingLit ++ C) =
      A2 ++ taskIdLit n ++ B ++ replLit ++ C2 := by
  have hn : n ∈ List.range' 1 30 := List.mem_range'_1.mpr ⟨h1, by omega⟩
  unfold updateAll
  rw [show A ++ taskIdLit n ++ B ++ pendingLit ++ C =
    A ++ (taskIdLit n ++ (B ++ (pendingLit ++ C))) from by
      simp [List.append_assoc]]
  obtain ⟨A2, C2, h⟩ := fold_fire n hn B hB (List.range' 1 30)
    (fun m hm => hm) hn A C
  refine ⟨A2, C2, ?_⟩
  rw [h]
  simp [List.append_assoc]

/-- Witness for C1 at the Scenario A document. -/
theorem c1_witness :
    ∃ A2 C2, updateAll scenarioA =
      A2 ++ taskIdLit 5 ++ "\n      ".data ++ replLit ++ C2 := by
  have h : scenarioA =
      [] ++ taskIdLit 5 ++ "\n      ".data ++ pendingLit ++ "\n".data := by
    decide
  rw [h]
  exact c1_pending_record_completed 5 [] "\n      ".data "\n".data
    (by decide) (by decide) (by decide)

/-- C5: the matching depends only on the two literal substrings appearing in
proximity, not on YAML validity: whatever the surrounding text A, B, C, a
document of the form A ++ id ++ B ++ pending ++ C has a pending status
field after the id rewritten to the replacement text by the pass. -/
theorem c5_literal_proximity_rewrite (n : Nat) (A B C : List Char)
    (h1 : 1 ≤ n) (h2 : n ≤ 30) :
    ∃ A2 B2 C2, updateAll (A ++ taskIdLit n ++ B ++ pendingLit ++ C) =
      A2 ++ taskIdLit n ++ B2 ++ replLit ++ C2 := by
  have hn : n ∈ List.range' 1 30 := List.mem_range'_1.mpr ⟨h1, by omega⟩
  by_cases hB : occFree pendingLit B
  · unfold updateAll
    rw [show A ++ taskIdLit n ++ B ++ pendingLit ++ C =
      A ++ (taskIdLit n ++ (B ++ (pendingLit ++ C))) from by
        simp [List.append_assoc]]
    obtain ⟨A2, C2, h⟩ := fold_fire n hn B hB (List.range' 1 30)
      (fun m hm => hm) hn A C
    refine ⟨A2, B, C2, ?_⟩
    rw [h]
    simp [List.append_assoc]
  · obtain ⟨B1, B2, hsplit, hB1⟩ := first_occ_split hB
    unfold updateAll
    rw [show A ++ taskIdLit n ++ B ++ pendingLit ++ C =
      A ++ (taskIdLit n ++ (B1 ++ (pendingLit ++ (B2 ++ (pendingLit ++ C)))))
      from by rw [hsplit]; simp [List.append_assoc]]
    obtain ⟨A2, C2, h⟩ := fold_fire n hn B1 hB1 (List.range' 1 30)
      (fun m hm => hm) hn A (B2 ++ (pendingLit ++ C))
    refine ⟨A2, B1, C2, ?_⟩
    rw [h]
    simp [List.append_assoc]

/-- Witness for C5 on a document that is not YAML at all: arbitrary junk
around the two literals still triggers the rewrite. -/
theorem c5_witness :
    ∃ A2 B2 C2, updateAll
        ("xx".data ++ taskIdLit 2 ++ " GARBAGE ".data ++ pendingLit ++
          "yy".data) =
      A2 ++ taskIdLit 2 ++ B2 ++ replLit ++ C2 :=
  c5_literal_proximity_rewrite 2 "xx".data " GARBAGE ".data "yy".data
    (by decide) (by decide)

end MainClaims

end SurveyBot
